import Mathlib

/-!
Verification development for the schema/layout utility functions of
angular2-json-schema-form (src/json-schema-form/utilities/utility-functions.ts).

The JavaScript data is embedded as the inductive type JsonValue; JS `undefined`
is a distinct constructor, since the code distinguishes it (a visitor returning
undefined deletes a layout element, a missing pointer target resolves to
undefined).  Mutable state (the schema-reference cache, the in-place updates of
layout elements) is embedded as explicit state passing.  The helper module
jsonpointer.ts is not part of the given sources, so its operations are
modelled from the specification (each such definition says so in its doc
comment); utility-functions.ts itself is embedded from the source.
-/

set_option linter.unusedVariables false

/-- A JSON-ish JavaScript value: null, undefined, booleans, numbers (integral,
which is all the claims need), strings, arrays, and objects as insertion-ordered
association lists. -/
inductive JsonValue where
  | null : JsonValue
  | undef : JsonValue
  | bool : Bool → JsonValue
  | num : Int → JsonValue
  | str : String → JsonValue
  | arr : List JsonValue → JsonValue
  | obj : List (String × JsonValue) → JsonValue
deriving Repr

namespace JsonValue

/-- Structural boolean equality on JsonValue. -/
def beqVal : JsonValue → JsonValue → Bool
  | .null, .null => true
  | .undef, .undef => true
  | .bool a, .bool b => a == b
  | .num a, .num b => a == b
  | .str a, .str b => a == b
  | .arr xs, .arr ys => beqList xs ys
  | .obj fs, .obj gs => beqFields fs gs
  | _, _ => false
where
  beqList : List JsonValue → List JsonValue → Bool
    | [], [] => true
    | x :: xs, y :: ys => beqVal x y && beqList xs ys
    | _, _ => false
  beqFields : List (String × JsonValue) → List (String × JsonValue) → Bool
    | [], [] => true
    | (k, v) :: fs, (l, w) :: gs => k == l && beqVal v w && beqFields fs gs
    | _, _ => false

end JsonValue

/-- `isArray` from validator-functions.ts (not itself in the given sources):
true exactly on JS arrays. -/
def isArray : JsonValue → Bool
  | .arr _ => true
  | _ => false

/-- Modelled from the spec: `isObject` from validator-functions.ts (the file is
not in the given sources).  Section 4.5 of the spec treats both mappings and
arrays as acceptable ("not an object/array"), so both count as objects here;
null, undefined and primitives do not. -/
def isObject : JsonValue → Bool
  | .obj _ => true
  | .arr _ => true
  | _ => false

/-- Enumerate a JS array's own index keys, as JS `Object.keys` does:
"0", "1", ... paired with the elements, in order. -/
def listEnumStr (xs : List JsonValue) : List (String × JsonValue) :=
  go 0 xs
where
  go : Nat → List JsonValue → List (String × JsonValue)
    | _, [] => []
    | i, x :: rest => (toString i, x) :: go (i + 1) rest

/-- Parse a canonical decimal numeral; `none` on the empty list or any
non-digit character.  (Fuel-free replacement for String.toNat? so that proofs
can evaluate it by kernel reduction.) -/
def digitsToNat? (cs : List Char) : Option Nat :=
  match cs with
  | [] => none
  | _ => go cs 0
where
  go : List Char → Nat → Option Nat
    | [], acc => some acc
    | c :: rest, acc =>
      if c.isDigit then go rest (acc * 10 + (c.toNat - 48)) else none

/-- JS property read on a non-null, non-undefined base: object field lookup
(first occurrence), array index lookup by canonical decimal key, `undefined`
for everything missing and for primitive bases. -/
def jsGet (v : JsonValue) (k : String) : JsonValue :=
  match v with
  | .obj fields => (fields.lookup k).getD .undef
  | .arr xs =>
    match digitsToNat? k.toList with
    | some i => if toString i = k then (xs.getD i .undef) else .undef
    | none => .undef
  | _ => .undef

namespace JsonPointer

/-- RFC 6901 segment escaping on the character sequence:
`~` becomes `~0`, `/` becomes `~1`. -/
def escapeChars : List Char → List Char
  | [] => []
  | c :: rest =>
    if c = '~' then '~' :: '0' :: escapeChars rest
    else if c = '/' then '~' :: '1' :: escapeChars rest
    else c :: escapeChars rest

/-- RFC 6901 segment escaping, a pure string transform per section 4.1. -/
def escape (s : String) : String :=
  String.mk (escapeChars s.toList)

/-- RFC 6901 segment unescaping on the character sequence:
`~1` becomes `/`, `~0` becomes `~`. -/
def unescapeChars : List Char → List Char
  | [] => []
  | c :: rest =>
    match c, rest with
    | '~', '1' :: rest' => '/' :: unescapeChars rest'
    | '~', '0' :: rest' => '~' :: unescapeChars rest'
    | c, rest => c :: unescapeChars rest

/-- RFC 6901 segment unescaping, a pure string transform per section 4.1. -/
def unescape (s : String) : String :=
  String.mk (unescapeChars s.toList)

/-- Modelled from the spec: `JsonPointer.compile` from jsonpointer.ts (the file
is not in the given sources).  Per section 4.1 it returns a canonical pointer
string, prefixing a missing leading slash; the empty string is the root
pointer and stays empty. -/
def compile (s : String) : String :=
  if s = "" then ""
  else
    match s.toList with
    | '/' :: _ => s
    | _ => "/" ++ s

/-- Split a character sequence at every slash. -/
def splitSlash : List Char → List (List Char)
  | [] => [[]]
  | c :: rest =>
    if c = '/' then [] :: splitSlash rest
    else
      match splitSlash rest with
      | seg :: segs => (c :: seg) :: segs
      | [] => [[c]]

/-- Modelled from the spec: `JsonPointer.parse` from jsonpointer.ts (the file
is not in the given sources).  Per section 4.1 it is the inverse of compile:
the ordered segment sequence after the leading slash, each segment
unescaped. -/
def parse (s : String) : List String :=
  if s = "" then []
  else ((splitSlash (compile s).toList).drop 1).map (fun cs => String.mk (unescapeChars cs))

/-- Modelled from the spec: `JsonPointer.get` from jsonpointer.ts (the file is
not in the given sources).  Per section 4.1 it walks the parsed segments from
the root and returns undefined the moment a segment is missing. -/
def get (v : JsonValue) (pointer : String) : JsonValue :=
  (parse pointer).foldl jsGet v

/-- Modelled from the spec: one step of `JsonPointer.getSchema` from
jsonpointer.ts (the file is not in the given sources).  It maps a data-pointer
segment into the schema: descend into the `properties` entry for the key when
one exists, otherwise read the key directly; missing locations give undefined
(section 4.1's convention for absent paths). -/
def getSchemaStep (schema : JsonValue) (k : String) : JsonValue :=
  match jsGet schema "properties" with
  | .obj pfields =>
    match pfields.lookup k with
    | some sub => sub
    | none => jsGet schema k
  | _ => jsGet schema k

/-- Modelled from the spec: `JsonPointer.getSchema` from jsonpointer.ts (the
file is not in the given sources): the sub-schema located at the given data
path, one `getSchemaStep` per segment. -/
def getSchema (schema : JsonValue) (segs : List String) : JsonValue :=
  segs.foldl getSchemaStep schema

end JsonPointer

/-- One entry of the schema-reference cache.  The JS code stores either
`\x7b isCircular: true \x7d` (no schema key) or `\x7b schema: value \x7d`;
`schema = none` embeds an absent key, which reads back as undefined. -/
structure CacheEntry where
  isCircular : Bool
  schema : Option JsonValue
deriving Repr

/-- The caller-supplied schema-reference cache, keyed by compiled pointer. -/
abbrev Cache := List (String × CacheEntry)

/-- JS property assignment on the cache object: overwrite the first binding of
the key when present, append otherwise. -/
def setEntry (cache : Cache) (k : String) (e : CacheEntry) : Cache :=
  match cache with
  | [] => [(k, e)]
  | (k', e') :: rest =>
    if k' = k then (k, e) :: rest else (k', e') :: setEntry rest k e

/-- The reference-normalization step of resolveSchemaReference (lines 163-173
of utility-functions.ts): a string compiles to a pointer; an object must have
exactly one key, `$ref`, with a string value; anything else is not a reference
(the function returns it unchanged, embedded as `none` here). -/
def refPointer : JsonValue → Option String
  | .str s => some (JsonPointer.compile s)
  | .obj [(k, .str r)] => if k = "$ref" then some (JsonPointer.compile r) else none
  | _ => none

/-- The allOf-wrapper test of resolveSchemaReference (lines 194-195): the
target must be an object with exactly one key `allOf` holding an array. -/
def allOfMembers : JsonValue → Option (List JsonValue)
  | .obj [(k, .arr ms)] => if k = "allOf" then some ms else none
  | _ => none

/-- JS field assignment `target[k] = v` on an association list: replace the
first binding of the key in place, append when absent. -/
def setField (fields : List (String × JsonValue)) (k : String) (v : JsonValue) :
    List (String × JsonValue) :=
  match fields with
  | [] => [(k, v)]
  | (k', v') :: rest =>
    if k' = k then (k, v) :: rest else (k', v') :: setField rest k v

/-- `Object.assign(acc, v)`: copy the source's own enumerable properties onto
the accumulator, later writes overwriting earlier bindings.  Objects contribute
their fields, arrays their indexed elements; primitives, null and undefined
contribute nothing. -/
def objAssignValue (acc : JsonValue) (v : JsonValue) : JsonValue :=
  match acc with
  | .obj afields =>
    match v with
    | .obj fs => .obj (fs.foldl (fun a (kv : String × JsonValue) => setField a kv.1 kv.2) afields)
    | .arr xs => .obj ((listEnumStr xs).foldl (fun a (kv : String × JsonValue) => setField a kv.1 kv.2) afields)
    | _ => acc
  | _ => acc

/-- Line 201 of utility-functions.ts: `reduce((v1, v2) => Object.assign(v1, v2), \x7b\x7d)`
over the resolved allOf members. -/
def mergeAllOf (vs : List JsonValue) : JsonValue :=
  vs.foldl objAssignValue (.obj [])

/-- Sequential resolution of a list of values with a cache-threading resolver:
the embedding of `item.allOf.map(object => this.resolveSchemaReference(...))`,
whose callbacks run left to right against the one shared mutable cache. -/
def resolveListWith (res : JsonValue → Cache → Option (JsonValue × Cache)) :
    List JsonValue → Cache → Option (List JsonValue × Cache)
  | [], cache => some ([], cache)
  | m :: ms, cache =>
    match res m cache with
    | none => none
    | some (v, c') =>
      match resolveListWith res ms c' with
      | none => none
      | some (vs, c'') => some (v :: vs, c'')

/-- Embedding of `resolveSchemaReference` (utility-functions.ts lines 160-206).
The mutable cache is threaded explicitly; `fuel` bounds the recursion depth and
`none` means the JS original would still be recursing at that depth (the
function has no other failure mode).  The remote (`http`) branch subscribes to
an asynchronous fetch and falls out of the function, synchronously returning
undefined with the cache untouched. -/
def resolveSchemaReference (fuel : Nat) (reference : JsonValue) (schema : JsonValue)
    (cache : Cache) (circularOK : Bool) : Option (JsonValue × Cache) :=
  match fuel with
  | 0 => none
  | fuel + 1 =>
    match refPointer reference with
    | none => some (reference, cache)
    | some sp =>
      match cache.lookup sp with
      | some entry =>
        if entry.isCircular && !circularOK then
          some (.obj [("$ref", .str sp)], cache)
        else
          some (entry.schema.getD .undef, cache)
      | none =>
        if sp = "" then
          some ((if circularOK then schema else .obj [("$ref", .str "")]),
            setEntry cache "" ⟨true, none⟩)
        else if sp.toList.take 4 = "http".toList then
          some (.undef, cache)
        else
          let item := JsonPointer.get schema sp
          match allOfMembers item with
          | none => some (item, setEntry cache sp ⟨false, some item⟩)
          | some ms =>
            match resolveListWith
                (fun m c => resolveSchemaReference fuel m schema c circularOK) ms cache with
            | none => none
            | some (vs, c') =>
              let targetSchema := mergeAllOf vs
              some (targetSchema, setEntry c' sp ⟨false, some targetSchema⟩)

example :
    resolveSchemaReference 1 (.str "") (.obj [("x", .num 1)]) [] false
      = some (.obj [("$ref", .str "")], [("", ⟨true, none⟩)]) := rfl

example :
    (resolveSchemaReference 2 (.str "/w")
      (.obj [("w", .obj [("allOf", .arr [.obj [("a", .num 1)],
                                          .obj [("$ref", .str "/defs/b")]])]),
             ("defs", .obj [("b", .obj [("b", .num 2)])])])
      [] false).map Prod.fst
      = some (.obj [("a", .num 1), ("b", .num 2)]) := rfl

/-- The child-recursion guard of mapLayout (lines 132-139): an object element
whose `items` is an array recurses under `/items`; otherwise, whose `tabs` is
an array recurses under `/tabs`; everything else is left alone.  (A JS array
element has neither field, so only mappings qualify.) -/
def itemsOrTabs : JsonValue → Option (String × List JsonValue)
  | .obj fields =>
    match fields.lookup "items" with
    | some (.arr xs) => some ("items", xs)
    | _ =>
      match fields.lookup "tabs" with
      | some (.arr ys) => some ("tabs", ys)
      | _ => none
  | _ => none

/-- JS field assignment on a value: objects get the field replaced or appended,
anything else is unchanged. -/
def setJField (v : JsonValue) (k : String) (w : JsonValue) : JsonValue :=
  match v with
  | .obj fields => .obj (setField fields k w)
  | v => v

theorem lookup_sizeOf_lt {l : List (String × JsonValue)} {k : String} {v : JsonValue}
    (h : l.lookup k = some v) : sizeOf v < sizeOf l := by
  induction l with
  | nil => simp [List.lookup] at h
  | cons hd tl ih =>
    obtain ⟨k', v'⟩ := hd
    rw [List.lookup] at h
    by_cases hk : k = k'
    · simp [hk] at h
      subst h
      simp
      omega
    · simp [beq_eq_false_iff_ne.mpr hk] at h
      have := ih h
      simp
      omega

theorem itemsOrTabs_sizeOf {item : JsonValue} {key : String} {xs : List JsonValue}
    (h : itemsOrTabs item = some (key, xs)) : sizeOf xs < sizeOf item := by
  match item with
  | .null | .undef | .bool _ | .num _ | .str _ | .arr _ => simp [itemsOrTabs] at h
  | .obj fields =>
    rw [itemsOrTabs] at h
    rcases h1 : fields.lookup "items" with _ | v1
    · rw [h1] at h
      rcases h2 : fields.lookup "tabs" with _ | v2
      · rw [h2] at h; simp at h
      · rw [h2] at h
        rcases v2 with _ | _ | _ | _ | _ | ys | _ <;> simp_all
        have := lookup_sizeOf_lt h2
        simp at this ⊢
        omega
    · rw [h1] at h
      rcases v1 with _ | _ | _ | _ | _ | ys | gs
      case arr =>
        simp at h
        obtain ⟨hk, hxs⟩ := h
        subst hxs
        have := lookup_sizeOf_lt h1
        simp at this ⊢
        omega
      all_goals
        (rcases h2 : fields.lookup "tabs" with _ | v2
         · rw [h2] at h; simp at h
         · rw [h2] at h
           rcases v2 with _ | _ | _ | _ | _ | ys | _ <;> simp_all
           have := lookup_sizeOf_lt h2
           simp at this ⊢
           omega)

theorem lookup_pair_sizeOf {l : List (String × JsonValue)} {k : String} {v : JsonValue}
    (h : l.lookup k = some v) : 1 + sizeOf k + sizeOf v < sizeOf l := by
  induction l with
  | nil => simp [List.lookup] at h
  | cons hd tl ih =>
    obtain ⟨k', v'⟩ := hd
    rw [List.lookup] at h
    by_cases hk : k = k'
    · simp [hk] at h
      subst h
      subst hk
      simp
      omega
    · simp [beq_eq_false_iff_ne.mpr hk] at h
      have := ih h
      simp
      omega

theorem jsonValue_sizeOf_pos (v : JsonValue) : 1 ≤ sizeOf v := by
  cases v <;> simp_arith

theorem itemsOrTabs_opt_sizeOf (item : JsonValue) :
    sizeOf (itemsOrTabs item) ≤ sizeOf item := by
  cases hio : itemsOrTabs item with
  | none =>
    have := jsonValue_sizeOf_pos item
    simp
    omega
  | some pr =>
    obtain ⟨key, xs⟩ := pr
    match item with
    | .null | .undef | .bool _ | .num _ | .str _ | .arr _ => simp [itemsOrTabs] at hio
    | .obj fields =>
      rw [itemsOrTabs] at hio
      rcases h1 : fields.lookup "items" with _ | v1
      · rw [h1] at hio
        rcases h2 : fields.lookup "tabs" with _ | v2
        · rw [h2] at hio; simp at hio
        · rw [h2] at hio
          rcases v2 with _ | _ | _ | _ | _ | ys | _ <;> simp_all
          have := lookup_pair_sizeOf h2
          simp at this ⊢
          omega
      · rw [h1] at hio
        rcases v1 with _ | _ | _ | _ | _ | ys | gs
        case arr =>
          simp at hio
          obtain ⟨hk, hxs⟩ := hio
          subst hxs
          have := lookup_pair_sizeOf h1
          subst hk
          simp at this ⊢
          omega
        all_goals
          (rcases h2 : fields.lookup "tabs" with _ | v2
           · rw [h2] at hio; simp at hio
           · rw [h2] at hio
             rcases v2 with _ | _ | _ | _ | _ | ys | _ <;> simp_all
             have := lookup_pair_sizeOf h2
             simp at this ⊢
             omega)

/-- The visitor handed to mapLayout: `(value, realIndex, rootLayout, path)`.
Its JS return value is an arbitrary value; returning undefined deletes the
element and returning an array splices the array's elements in. -/
abbrev LayoutFn := JsonValue → Int → List JsonValue → String → JsonValue

/-- Everything observable about one mapLayout pass: the rebuilt sequence
(`out`), the `(value, realIndex, path)` triple of every visitor invocation in
call order (`calls`), and the state the input elements are left in after the
pass (`after`), since the JS code aliases `newItem` to the input element and
overwrites its `items`/`tabs` in place before invoking the visitor. -/
structure MapLayoutOut where
  out : List JsonValue
  calls : List (JsonValue × Int × String)
  after : List JsonValue
deriving Repr

mutual

/-- Embedding of the `_.forEach` body of mapLayout (utility-functions.ts lines
126-149), threading the loop state (source index, indexPad) explicitly:
`realIndex = index + indexPad`, `newPath = path + "/" + realIndex`, child
recursion into `items`/`tabs` replacing the sub-sequence on the (aliased, not
copied) element, then the visitor; undefined drops the element and decrements
indexPad, an array is spliced in and adds `length - 1` to indexPad, anything
else is appended. -/
def mapLayoutAux (fn : LayoutFn) (rootLayout : List JsonValue) :
    List JsonValue → String → Int → Int → MapLayoutOut
  | [], _, _, _ => ⟨[], [], []⟩
  | item :: rest, path, index, pad =>
    let realIndex := index + pad
    let newPath := path ++ "/" ++ toString realIndex
    let sub : JsonValue × List (JsonValue × Int × String) :=
      match mapLayoutSub fn rootLayout newPath (itemsOrTabs item) with
      | some (key, subRes) => (setJField item key (.arr subRes.out), subRes.calls)
      | none => (item, [])
    let newItem := sub.1
    let r := fn newItem realIndex rootLayout newPath
    let step : List JsonValue × Int :=
      match r with
      | .undef => ([], pad - 1)
      | .arr ys => (ys, pad + ys.length - 1)
      | v => ([v], pad)
    let restRes := mapLayoutAux fn rootLayout rest path (index + 1) step.2
    ⟨step.1 ++ restRes.out,
     sub.2 ++ [(newItem, realIndex, newPath)] ++ restRes.calls,
     newItem :: restRes.after⟩
termination_by layout _ _ _ => sizeOf layout
decreasing_by
  · have h1 := itemsOrTabs_opt_sizeOf item
    simp at h1 ⊢
    try omega
  · simp
    try omega

/-- The child recursion of one mapLayout element, keyed on the result of the
`items`/`tabs` test: the mapped sub-sequence together with the field name it
replaces. -/
def mapLayoutSub (fn : LayoutFn) (rootLayout : List JsonValue) (newPath : String) :
    Option (String × List JsonValue) → Option (String × MapLayoutOut)
  | none => none
  | some (key, xs) =>
    some (key, mapLayoutAux fn rootLayout xs (newPath ++ "/" ++ key) 0 0)
termination_by o => sizeOf o
decreasing_by
  simp
  omega

end

/-- `mapLayout(layout, fn, rootLayout, path)`: the new layout built by the
pass. -/
def mapLayout (layout : List JsonValue) (fn : LayoutFn)
    (rootLayout : List JsonValue) (path : String) : List JsonValue :=
  (mapLayoutAux fn rootLayout layout path 0 0).out

/-- The `(value, realIndex, path)` of every visitor invocation of a mapLayout
pass, in invocation order (children before their containing element). -/
def mapLayoutCalls (layout : List JsonValue) (fn : LayoutFn)
    (rootLayout : List JsonValue) (path : String) : List (JsonValue × Int × String) :=
  (mapLayoutAux fn rootLayout layout path 0 0).calls

/-- The input sequence's elements as left behind by a mapLayout pass: the JS
code aliases each element (`let newItem = item`) and assigns
`newItem.items = this.mapLayout(...)` (or `.tabs`) in place, so an element
with an `items`/`tabs` array is mutated; all other elements are untouched. -/
def mapLayoutInputAfter (layout : List JsonValue) (fn : LayoutFn)
    (rootLayout : List JsonValue) (path : String) : List JsonValue :=
  (mapLayoutAux fn rootLayout layout path 0 0).after

example :
    mapLayout [.num 10, .num 20, .num 30]
      (fun v _ _ p =>
        match v with
        | .num 20 => .undef
        | .num 30 => .arr [.str p, .str p]
        | v => v)
      [.num 10, .num 20, .num 30] ""
      = [.num 10, .str "/1", .str "/1"] := by
  simp [mapLayout, mapLayoutAux, mapLayoutSub, itemsOrTabs, setJField, setField]
  rfl

/-- The child iteration of forOwnDeep (lines 319-328): arrays iterate their
elements under their index keys, objects their own fields in insertion order,
everything else has no children. -/
def childrenOf : JsonValue → List (String × JsonValue)
  | .obj fields => fields
  | .arr xs => listEnumStr xs
  | _ => []

theorem sizeOf_list_append (xs ys : List JsonValue) :
    sizeOf (xs ++ ys) + 1 = sizeOf xs + sizeOf ys := by
  induction xs with
  | nil => simp; omega
  | cons x rest ih => simp at ih ⊢; omega

theorem sizeOf_list_reverse (xs : List JsonValue) : sizeOf xs.reverse = sizeOf xs := by
  induction xs with
  | nil => rfl
  | cons x rest ih =>
    have h := sizeOf_list_append rest.reverse [x]
    rw [ih] at h
    rw [List.reverse_cons]
    simp at h ⊢
    omega

theorem sizeOf_map_snd_le (l : List (String × JsonValue)) :
    sizeOf (l.map Prod.snd) ≤ sizeOf l := by
  induction l with
  | nil => simp
  | cons kv rest ih =>
    obtain ⟨k, v⟩ := kv
    simp
    omega

theorem listEnumStr_go_map_snd (i : Nat) (xs : List JsonValue) :
    (listEnumStr.go i xs).map Prod.snd = xs := by
  induction xs generalizing i with
  | nil => rfl
  | cons x rest ih => simp [listEnumStr.go, ih]

theorem sizeOf_childrenOf_vals (o : JsonValue) :
    sizeOf ((childrenOf o).map Prod.snd) ≤ sizeOf o := by
  match o with
  | .null | .undef | .bool _ | .num _ | .str _ => simp [childrenOf]
  | .obj fields =>
    have := sizeOf_map_snd_le fields
    simp [childrenOf]
    omega
  | .arr xs =>
    simp [childrenOf, listEnumStr, listEnumStr_go_map_snd]
    try omega

theorem list_sizeOf_pos (l : List JsonValue) : 1 ≤ sizeOf l := by
  cases l <;> simp_arith

/-- One visitor invocation of forOwnDeep: the value, the current key (the last
segment of the pointer, absent at the root), and the JSON pointer. -/
abbrev Visit := JsonValue × Option String × String

mutual

/-- Embedding of forOwnDeep (utility-functions.ts lines 307-344) as the
sequence of visitor invocations it performs, in order.  A non-root node is
visited before its children top-down and after them bottom-up; bottom-up also
iterates the children in reverse (`_.forOwnRight` / `_.forEachRight`); the
root node itself is never visited.  The walker ignores the visitor's return
value, so the invocation sequence is the function's observable behaviour. -/
def forOwnDeepVisits (object : JsonValue) (isRoot : Bool) (jsonPointer : String)
    (bottomUp : Bool) : List Visit :=
  let self : Visit := (object, (JsonPointer.parse jsonPointer).getLast?, jsonPointer)
  (if !isRoot && !bottomUp then [self] else [])
    ++ forOwnDeepChildVisits
        (if bottomUp then (childrenOf object).reverse else childrenOf object)
        jsonPointer bottomUp
    ++ (if !isRoot && bottomUp then [self] else [])
termination_by sizeOf object + 1
decreasing_by
  have h1 := sizeOf_childrenOf_vals object
  cases bottomUp <;> simp
  · omega
  · rw [sizeOf_list_reverse]
    omega

/-- The recursive `forFn(object, (value, key) => this.forOwnDeep(...))` step:
visit each listed child in order, extending the pointer by its escaped key. -/
def forOwnDeepChildVisits (children : List (String × JsonValue))
    (jsonPointer : String) (bottomUp : Bool) : List Visit :=
  match children with
  | [] => []
  | (k, v) :: rest =>
    forOwnDeepVisits v false (jsonPointer ++ "/" ++ JsonPointer.escape k) bottomUp
      ++ forOwnDeepChildVisits rest jsonPointer bottomUp
termination_by sizeOf (children.map Prod.snd)
decreasing_by
  all_goals
    have := list_sizeOf_pos (rest.map Prod.snd)
    simp at this ⊢
    try omega

end

/-- Navigate a value along a segment sequence through `childrenOf`:
the node addressed by the segments, `none` when absent. -/
def nodeAtSegs (v : JsonValue) : List String → Option JsonValue
  | [] => some v
  | k :: rest =>
    match (childrenOf v).lookup k with
    | some w => nodeAtSegs w rest
    | none => none

/-- The JSON pointer a segment sequence produces when the walker extends a
base pointer one escaped segment at a time. -/
def ptrOfSegs (base : String) (segs : List String) : String :=
  segs.foldl (fun p k => p ++ "/" ++ JsonPointer.escape k) base

example :
    (forOwnDeepVisits
      (.obj [("a", .obj [("b", .num 1)]), ("c", .num 2)]) true "" false).map
        (fun e => e.2.2)
      = ["/a", "/a/b", "/c"] := by
  simp [forOwnDeepVisits, forOwnDeepChildVisits, childrenOf,
    JsonPointer.escape, JsonPointer.escapeChars, JsonPointer.parse]

example :
    (forOwnDeepVisits
      (.obj [("a", .obj [("b", .num 1)]), ("c", .num 2)]) true "" true).map
        (fun e => e.2.2)
      = ["/c", "/a/b", "/a"] := by
  simp [forOwnDeepVisits, forOwnDeepChildVisits, childrenOf,
    JsonPointer.escape, JsonPointer.escapeChars, JsonPointer.parse]

/-- JS bracket access `base[k]` with its failure mode: reading a property of
`undefined` or `null` throws a TypeError (embedded as `Except.error`);
any other base yields the property value, undefined when absent. -/
def jsIndex (v : JsonValue) (k : String) : Except Unit JsonValue :=
  match v with
  | .undef => .error ()
  | .null => .error ()
  | v => .ok (jsGet v k)

/-- The required-list read of isInputRequired (lines 363-374): with more than
one segment, read `required` at the pointer's parent path — from that
ancestor's `items` sub-schema when the parent path's last segment is `-` —
and from the top-level schema with a single segment (the schema is an object
or array there, so that read cannot throw); each chained bracket access keeps
its JS throwing behaviour, hence the `Except`. -/
def requiredListCode (schema : JsonValue) (segs : List String) : Except Unit JsonValue :=
  if segs.length > 1 then
    let parentSegs := segs.dropLast
    if parentSegs.getLast? = some "-" then
      match jsIndex (JsonPointer.getSchema schema parentSegs.dropLast) "items" with
      | .error e => .error e
      | .ok it => jsIndex it "required"
    else
      jsIndex (JsonPointer.getSchema schema parentSegs) "required"
  else .ok (jsGet schema "required")

/-- Embedding of `isInputRequired` (utility-functions.ts lines 355-378).
A non-object schema logs an error and reports false; an empty parsed pointer
reports false; otherwise the required list is read at the pointer's parent
path (`requiredListCode`) and the result is true iff that list is an array
containing the pointer's last segment (JS `indexOf`, strict equality). -/
def isInputRequired (schema : JsonValue) (pointer : String) : Except Unit Bool :=
  if isObject schema = false then .ok false
  else
    match JsonPointer.parse pointer with
    | [] => .ok false
    | seg0 :: restSegs =>
      let keyName := (seg0 :: restSegs).getLast (by simp)
      match requiredListCode schema (seg0 :: restSegs) with
      | .error e => .error e
      | .ok (.arr l) =>
        .ok (l.any (fun v => match v with | .str s => s = keyName | _ => false))
      | .ok _ => .ok false

/-- The required list as the specification words it: located at the pointer's
parent path, taken from that ancestor's `items` sub-schema when the parent
path's last segment is `-`, from the schema at the parent path otherwise, and
from the top-level schema's `required` when the pointer has one segment.
Total (absent locations read as undefined), for comparison with the code's
throwing accesses. -/
def requiredListClaim (schema : JsonValue) (segs : List String) : JsonValue :=
  if segs.length > 1 then
    let parentSegs := segs.dropLast
    if parentSegs.getLast? = some "-" then
      jsGet (jsGet (JsonPointer.getSchema schema parentSegs.dropLast) "items") "required"
    else
      jsGet (JsonPointer.getSchema schema parentSegs) "required"
  else jsGet schema "required"

example :
    isInputRequired
      (.obj [("required", .arr [.str "name"]), ("properties", .obj [("name", .obj [])])])
      "/name" = .ok true := rfl

example :
    isInputRequired
      (.obj [("properties", .obj [("list",
        .obj [("items", .obj [("required", .arr [.str "x"])])])])])
      "/list/-/x" = .ok true := rfl

example : isInputRequired (.obj []) "/a/-/x" = .error () := rfl

/-- Embedding of mapLayout invoked as an unbound function: the recursive step
is written `this.mapLayout(...)` (lines 135 and 138), so as soon as an element
has an `items` or `tabs` array the member access on the unbound `this` throws
(embedded as `Except.error`); elements needing no recursion are processed
normally, with the same drop/splice/append policy as the bound function. -/
def mapLayoutUnboundAux (fn : LayoutFn) (rootLayout : List JsonValue) :
    List JsonValue → String → Int → Int → Except Unit (List JsonValue)
  | [], _, _, _ => .ok []
  | item :: rest, path, index, pad =>
    let realIndex := index + pad
    let newPath := path ++ "/" ++ toString realIndex
    match itemsOrTabs item with
    | some _ => .error ()
    | none =>
      let r := fn item realIndex rootLayout newPath
      let step : List JsonValue × Int :=
        match r with
        | .undef => ([], pad - 1)
        | .arr ys => (ys, pad + ys.length - 1)
        | v => ([v], pad)
      match mapLayoutUnboundAux fn rootLayout rest path (index + 1) step.2 with
      | .error e => .error e
      | .ok out => .ok (step.1 ++ out)

/-- The unbound mapLayout call as the caller sees it. -/
def mapLayoutUnbound (layout : List JsonValue) (fn : LayoutFn)
    (rootLayout : List JsonValue) (path : String) : Except Unit (List JsonValue) :=
  mapLayoutUnboundAux fn rootLayout layout path 0 0

/-- Embedding of forOwnDeep invoked as an unbound function on the root: the
child recursion runs `this.forOwnDeep(...)` inside the iteration callback
(lines 325-327), so the first child visited throws (embedded as
`Except.error`); a node with no children never runs the callback and the
function returns its argument normally. -/
def forOwnDeepUnbound (object : JsonValue) : Except Unit JsonValue :=
  match childrenOf object with
  | [] => .ok object
  | _ => .error ()

/-- Embedding of resolveSchemaReference invoked as an unbound function: the
remote branch reads `this.http` (line 186) and the allOf branch maps
`this.resolveSchemaReference` over the members (line 200), so each throws when
reached with at least one member — but an empty `allOf` array never runs the
map callback and falls through to the merge of no members, returning the empty
object normally.  All other paths never touch `this` and behave exactly like
the bound function. -/
def resolveSchemaReferenceUnbound (reference : JsonValue) (schema : JsonValue)
    (cache : Cache) (circularOK : Bool) : Except Unit (JsonValue × Cache) :=
  match refPointer reference with
  | none => .ok (reference, cache)
  | some sp =>
    match cache.lookup sp with
    | some entry =>
      if entry.isCircular && !circularOK then
        .ok (.obj [("$ref", .str sp)], cache)
      else
        .ok (entry.schema.getD .undef, cache)
    | none =>
      if sp = "" then
        .ok ((if circularOK then schema else .obj [("$ref", .str "")]),
          setEntry cache "" ⟨true, none⟩)
      else if sp.toList.take 4 = "http".toList then
        .error ()
      else
        let item := JsonPointer.get schema sp
        match allOfMembers item with
        | none => .ok (item, setEntry cache sp ⟨false, some item⟩)
        | some [] =>
          let targetSchema := mergeAllOf []
          .ok (targetSchema, setEntry cache sp ⟨false, some targetSchema⟩)
        | some (_ :: _) => .error ()

theorem resolve_notref (fuel : Nat) (reference schema : JsonValue)
    (cache : Cache) (cOK : Bool) (h0 : refPointer reference = none) :
    resolveSchemaReference (fuel + 1) reference schema cache cOK
      = some (reference, cache) := by
  simp only [resolveSchemaReference, h0]

theorem resolve_cache_hit (fuel : Nat) (reference : JsonValue) (sp : String)
    (entry : CacheEntry) (schema : JsonValue) (cache : Cache) (cOK : Bool)
    (h0 : refPointer reference = some sp) (h1 : cache.lookup sp = some entry) :
    resolveSchemaReference (fuel + 1) reference schema cache cOK
      = if entry.isCircular && !cOK then some (.obj [("$ref", .str sp)], cache)
        else some (entry.schema.getD .undef, cache) := by
  simp only [resolveSchemaReference, h0, h1]

theorem resolve_root (fuel : Nat) (reference schema : JsonValue)
    (cache : Cache) (cOK : Bool)
    (h0 : refPointer reference = some "") (h1 : cache.lookup "" = none) :
    resolveSchemaReference (fuel + 1) reference schema cache cOK
      = some ((if cOK then schema else .obj [("$ref", .str "")]),
          setEntry cache "" ⟨true, none⟩) := by
  simp only [resolveSchemaReference, h0, h1]
  simp

theorem resolve_http (fuel : Nat) (reference : JsonValue) (sp : String)
    (schema : JsonValue) (cache : Cache) (cOK : Bool)
    (h0 : refPointer reference = some sp) (h1 : cache.lookup sp = none)
    (h2 : sp ≠ "") (h3 : sp.toList.take 4 = "http".toList) :
    resolveSchemaReference (fuel + 1) reference schema cache cOK
      = some (.undef, cache) := by
  simp only [resolveSchemaReference, h0, h1, h3, if_neg h2, if_true]

theorem resolve_plain (fuel : Nat) (reference : JsonValue) (sp : String)
    (schema : JsonValue) (cache : Cache) (cOK : Bool)
    (h0 : refPointer reference = some sp) (h1 : cache.lookup sp = none)
    (h2 : sp ≠ "") (h3 : sp.toList.take 4 ≠ "http".toList)
    (h4 : allOfMembers (JsonPointer.get schema sp) = none) :
    resolveSchemaReference (fuel + 1) reference schema cache cOK
      = some (JsonPointer.get schema sp,
          setEntry cache sp ⟨false, some (JsonPointer.get schema sp)⟩) := by
  simp only [resolveSchemaReference, h0, h1, h4, if_neg h2, if_neg h3]

theorem resolve_allof_step (fuel : Nat) (reference : JsonValue) (sp : String)
    (ms : List JsonValue) (schema : JsonValue) (cache : Cache) (cOK : Bool)
    (h0 : refPointer reference = some sp) (h1 : cache.lookup sp = none)
    (h2 : sp ≠ "") (h3 : sp.toList.take 4 ≠ "http".toList)
    (h4 : allOfMembers (JsonPointer.get schema sp) = some ms) :
    resolveSchemaReference (fuel + 1) reference schema cache cOK
      = match resolveListWith
            (fun m c => resolveSchemaReference fuel m schema c cOK) ms cache with
        | none => none
        | some (vs, c') =>
          some (mergeAllOf vs, setEntry c' sp ⟨false, some (mergeAllOf vs)⟩) := by
  simp only [resolveSchemaReference, h0, h1, h4, if_neg h2, if_neg h3]

/-- C1 counterexample: against claim C1, the root self-reference does not
return the full root schema on a repeated resolution with `circularOK = true`
against the same cache: the first resolution returns the root schema and
installs the circular marker (which stores no schema), and the second
resolution returns undefined, not the root schema. -/
theorem C1_counterexample :
    resolveSchemaReference 1 (.str "") (.obj [("x", .num 1)]) [] true
      = some (.obj [("x", .num 1)], [("", ⟨true, none⟩)])
    ∧ resolveSchemaReference 1 (.str "") (.obj [("x", .num 1)])
        [("", ⟨true, none⟩)] true
      = some (.undef, [("", ⟨true, none⟩)])
    ∧ JsonValue.undef ≠ JsonValue.obj [("x", .num 1)] :=
  ⟨rfl, rfl, fun h => JsonValue.noConfusion h⟩

/-- C1 (amended): resolving the root self-reference pointer is always
short-circuited.  With `circularOK = false` it returns the placeholder
obj [$ref ↦ ""] both on the first resolution (installing the circular marker)
and on every repeated resolution against the marker; with `circularOK = true`
the first resolution returns the full root schema, but a repeated resolution
returns undefined, because the circular marker entry stores no schema. -/
theorem C1_root_self_reference (schema : JsonValue) (cache : Cache) (fuel : Nat) :
    (cache.lookup "" = none →
      resolveSchemaReference (fuel + 1) (.str "") schema cache false
          = some (.obj [("$ref", .str "")], setEntry cache "" ⟨true, none⟩)
        ∧ resolveSchemaReference (fuel + 1) (.str "") schema cache true
          = some (schema, setEntry cache "" ⟨true, none⟩))
    ∧ (cache.lookup "" = some ⟨true, none⟩ →
      resolveSchemaReference (fuel + 1) (.str "") schema cache false
          = some (.obj [("$ref", .str "")], cache)
        ∧ resolveSchemaReference (fuel + 1) (.str "") schema cache true
          = some (.undef, cache)) := by
  have h0 : refPointer (.str "") = some "" := rfl
  constructor
  · intro h1
    rw [resolve_root fuel (.str "") schema cache false h0 h1,
      resolve_root fuel (.str "") schema cache true h0 h1]
    exact ⟨rfl, rfl⟩
  · intro h1
    rw [resolve_cache_hit fuel (.str "") "" ⟨true, none⟩ schema cache false h0 h1,
      resolve_cache_hit fuel (.str "") "" ⟨true, none⟩ schema cache true h0 h1]
    exact ⟨rfl, rfl⟩

/-- C1 witness: the amended theorem applied at a concrete schema, an empty
cache for the first resolution and the marker cache for the repeat. -/
theorem C1_root_self_reference_witness :
    resolveSchemaReference 1 (.str "") (.obj []) [] true
        = some (.obj [], [("", ⟨true, none⟩)])
    ∧ resolveSchemaReference 1 (.str "") (.obj []) [("", ⟨true, none⟩)] true
        = some (.undef, [("", ⟨true, none⟩)]) :=
  ⟨((C1_root_self_reference (.obj []) [] 0).1 rfl).2,
   ((C1_root_self_reference (.obj []) [("", ⟨true, none⟩)] 0).2 rfl).2⟩

/-- A two-pointer reference cycle where each definition is a plain reference
object: /defs/A is obj [$ref ↦ /defs/B] and /defs/B is obj [$ref ↦ /defs/A]. -/
def c4ChainSchema : JsonValue :=
  .obj [("defs", .obj [
    ("A", .obj [("$ref", .str "/defs/B")]),
    ("B", .obj [("$ref", .str "/defs/A")])])]

/-- A two-pointer reference cycle routed through allOf wrappers: /defs/A is
obj [allOf ↦ [obj [$ref ↦ /defs/B]]] and /defs/B refers back to /defs/A the
same way. -/
def c4CycleSchema : JsonValue :=
  .obj [("defs", .obj [
    ("A", .obj [("allOf", .arr [.obj [("$ref", .str "/defs/B")]])]),
    ("B", .obj [("allOf", .arr [.obj [("$ref", .str "/defs/A")]])])])]

/-- C4 counterexample: against claim C4, not every two-pointer reference cycle
makes the resolver recurse without a base case.  In the plain chain cycle
/defs/A ↔ /defs/B the target of /defs/A is not an allOf wrapper, so it is
cached and returned verbatim at recursion depth one — the resolver never
follows it. -/
theorem C4_counterexample :
    resolveSchemaReference 1 (.str "/defs/A") c4ChainSchema [] false
      = some (.obj [("$ref", .str "/defs/B")],
          [("/defs/A", ⟨false, some (.obj [("$ref", .str "/defs/B")])⟩)]) := rfl

theorem c4_cycle_aux : ∀ (n : Nat) (cOK : Bool),
    resolveSchemaReference n (.obj [("$ref", .str "/defs/A")]) c4CycleSchema [] cOK = none
    ∧ resolveSchemaReference n (.obj [("$ref", .str "/defs/B")]) c4CycleSchema [] cOK = none := by
  intro n
  induction n with
  | zero => exact fun cOK => ⟨rfl, rfl⟩
  | succ m ih =>
    intro cOK
    constructor
    · rw [resolve_allof_step m (.obj [("$ref", .str "/defs/A")]) "/defs/A"
          [.obj [("$ref", .str "/defs/B")]] c4CycleSchema [] cOK rfl rfl
          (by decide) (by decide) rfl]
      have h1 : resolveListWith
          (fun mm c => resolveSchemaReference m mm c4CycleSchema c cOK)
          [.obj [("$ref", .str "/defs/B")]] [] = none := by
        simp only [resolveListWith]
        rw [(ih cOK).2]
      rw [h1]
    · rw [resolve_allof_step m (.obj [("$ref", .str "/defs/B")]) "/defs/B"
          [.obj [("$ref", .str "/defs/A")]] c4CycleSchema [] cOK rfl rfl
          (by decide) (by decide) rfl]
      have h1 : resolveListWith
          (fun mm c => resolveSchemaReference m mm c4CycleSchema c cOK)
          [.obj [("$ref", .str "/defs/A")]] [] = none := by
        simp only [resolveListWith]
        rw [(ih cOK).1]
      rw [h1]

/-- C4 (amended): a reference cycle through two or more distinct pointers is
not detected when its links are allOf wrappers — a pointer's cache entry is
written only after its resolution completes, so resolving such a cycle
recurses without ever reaching a base case (none at every recursion depth,
with either circularOK value); but a cycle of plain obj [$ref ↦ p] targets is
not followed at all: the target object is cached and returned verbatim.  Only
the direct root self-reference is guarded. -/
theorem C4_cycle_behaviour : ∀ (fuel : Nat) (cOK : Bool),
    resolveSchemaReference fuel (.str "/defs/A") c4CycleSchema [] cOK = none
    ∧ resolveSchemaReference (fuel + 1) (.str "/defs/A") c4ChainSchema [] cOK
      = some (.obj [("$ref", .str "/defs/B")],
          [("/defs/A", ⟨false, some (.obj [("$ref", .str "/defs/B")])⟩)]) := by
  intro fuel cOK
  constructor
  · match fuel with
    | 0 => rfl
    | m + 1 =>
      rw [resolve_allof_step m (.str "/defs/A") "/defs/A"
          [.obj [("$ref", .str "/defs/B")]] c4CycleSchema [] cOK rfl rfl
          (by decide) (by decide) rfl]
      have h1 : resolveListWith
          (fun mm c => resolveSchemaReference m mm c4CycleSchema c cOK)
          [.obj [("$ref", .str "/defs/B")]] [] = none := by
        simp only [resolveListWith]
        rw [(c4_cycle_aux m cOK).2]
      rw [h1]
  · rw [resolve_plain fuel (.str "/defs/A") "/defs/A" c4ChainSchema [] cOK rfl rfl
      (by decide) (by decide) rfl]
    rfl

theorem mapLayoutAux_nil (fn : LayoutFn) (root : List JsonValue) (path : String)
    (index pad : Int) : mapLayoutAux fn root [] path index pad = ⟨[], [], []⟩ := by
  simp only [mapLayoutAux]

theorem mapLayoutAux_cons_plain (fn : LayoutFn) (root : List JsonValue)
    (item : JsonValue) (rest : List JsonValue) (path : String) (index pad : Int)
    (hio : itemsOrTabs item = none) :
    mapLayoutAux fn root (item :: rest) path index pad =
      (let realIndex := index + pad
       let newPath := path ++ "/" ++ toString realIndex
       let r := fn item realIndex root newPath
       let step : List JsonValue × Int :=
         match r with
         | .undef => ([], pad - 1)
         | .arr ys => (ys, pad + ys.length - 1)
         | v => ([v], pad)
       let restRes := mapLayoutAux fn root rest path (index + 1) step.2
       ⟨step.1 ++ restRes.out,
        (item, realIndex, newPath) :: restRes.calls,
        item :: restRes.after⟩) := by
  simp only [mapLayoutAux, hio, mapLayoutSub]
  simp

theorem mapLayoutAux_cons_sub (fn : LayoutFn) (root : List JsonValue)
    (item : JsonValue) (rest : List JsonValue) (path : String) (index pad : Int)
    (key : String) (xs : List JsonValue) (hio : itemsOrTabs item = some (key, xs)) :
    mapLayoutAux fn root (item :: rest) path index pad =
      (let realIndex := index + pad
       let newPath := path ++ "/" ++ toString realIndex
       let subRes := mapLayoutAux fn root xs (newPath ++ "/" ++ key) 0 0
       let newItem := setJField item key (.arr subRes.out)
       let r := fn newItem realIndex root newPath
       let step : List JsonValue × Int :=
         match r with
         | .undef => ([], pad - 1)
         | .arr ys => (ys, pad + ys.length - 1)
         | v => ([v], pad)
       let restRes := mapLayoutAux fn root rest path (index + 1) step.2
       ⟨step.1 ++ restRes.out,
        subRes.calls ++ [(newItem, realIndex, newPath)] ++ restRes.calls,
        newItem :: restRes.after⟩) := by
  simp only [mapLayoutAux, hio, mapLayoutSub]
  try simp

/-- The three-element layout of the fan-out/deletion scenario. -/
def c5Layout : List JsonValue := [.num 10, .num 20, .num 30]

/-- The scenario visitor: deletes the element that was at source index 1
(returns undefined), expands the element at source index 2 into two elements
each recording the path the visitor was handed, and keeps everything else. -/
def c5Fn : LayoutFn := fun v _ _ p =>
  match v with
  | .num 20 => .undef
  | .num 30 => .arr [.str p, .str p]
  | v => v

/-- C5 counterexample: against claim C5, the visitor call that produces the
third output element reports path "/1", not "/2" — after the deletion at
index 1 the expanded element's realIndex is 2 + (-1) = 1, and both spliced
elements come from that one call, as the paths they record show. -/
theorem C5_counterexample :
    mapLayout c5Layout c5Fn c5Layout "" = [.num 10, .str "/1", .str "/1"]
    ∧ JsonValue.str "/1" ≠ JsonValue.str "/2" := by
  constructor
  · simp [mapLayout, mapLayoutAux, mapLayoutSub, c5Layout, c5Fn, itemsOrTabs,
      setJField, setField]
    rfl
  · intro h
    simp at h

/-- C5 (amended): mapLayout computes each element's realIndex as its source
index plus the running indexPad and its path as path + "/" + realIndex, with
undefined dropping the element (indexPad - 1), an array splicing its elements
in (indexPad + length - 1), and anything else appended; deleting index 1 and
expanding index 2 of a three-element layout yields a three-element output
whose visitor calls report paths /0, /1, /1 — the expansion call (and with it
the third output element) reports /1, that element's final position being
index 2. -/
theorem C5_layout_fan_out :
    (mapLayout c5Layout c5Fn c5Layout "").length = 3
    ∧ mapLayoutCalls c5Layout c5Fn c5Layout ""
      = [(.num 10, 0, "/0"), (.num 20, 1, "/1"), (.num 30, 1, "/1")] := by
  constructor
  · simp [mapLayout, mapLayoutAux, mapLayoutSub, c5Layout, c5Fn, itemsOrTabs,
      setJField, setField]
  · simp [mapLayoutCalls, mapLayoutAux, mapLayoutSub, c5Layout, c5Fn, itemsOrTabs,
      setJField, setField]
    exact ⟨rfl, rfl⟩

/-- The single-element layout whose element holds an items array. -/
def c6Layout : List JsonValue := [.obj [("items", .arr [.num 5])]]

/-- A visitor that deletes numbers and keeps everything else, making the
recursive items mapping observable on the input element. -/
def c6Fn : LayoutFn := fun v _ _ _ =>
  match v with
  | .num _ => .undef
  | v => v

/-- C6 counterexample: against claim C6, mapLayout mutates the caller's
elements: the JS code aliases the element (`let newItem = item`, no shallow
copy) and overwrites its `items` in place, so after the pass the input's
element holds items [] instead of items [5]. -/
theorem C6_counterexample :
    mapLayoutInputAfter c6Layout c6Fn c6Layout "" = [.obj [("items", .arr [])]]
    ∧ ([JsonValue.obj [("items", .arr [])]] : List JsonValue) ≠ c6Layout := by
  constructor
  · simp [mapLayoutInputAfter, mapLayoutAux, mapLayoutSub, c6Layout, c6Fn,
      itemsOrTabs, setJField, setField]
  · intro h
    simp [c6Layout] at h

theorem mapLayoutAux_after (fn : LayoutFn) (root : List JsonValue) :
    ∀ (layout : List JsonValue) (path : String) (index pad : Int),
      (mapLayoutAux fn root layout path index pad).after.length = layout.length
      ∧ ((∀ e ∈ layout, itemsOrTabs e = none) →
          (mapLayoutAux fn root layout path index pad).after = layout) := by
  intro layout
  induction layout with
  | nil =>
    intro path index pad
    rw [mapLayoutAux_nil]
    exact ⟨rfl, fun _ => rfl⟩
  | cons item rest ih =>
    intro path index pad
    constructor
    · cases hio : itemsOrTabs item with
      | none =>
        rw [mapLayoutAux_cons_plain fn root item rest path index pad hio]
        simpa using (ih _ _ _).1
      | some pr =>
        rw [mapLayoutAux_cons_sub fn root item rest path index pad pr.1 pr.2
          (by rw [hio])]
        simpa using (ih _ _ _).1
    · intro hplain
      have hio := hplain item (by simp)
      rw [mapLayoutAux_cons_plain fn root item rest path index pad hio]
      simp
      exact (ih _ _ _).2 (fun e he => hplain e (by simp [he]))

/-- C6 (amended): mapLayout builds a new output sequence and leaves untouched
every input element that has no `items`/`tabs` array (and always leaves the
input sequence's length unchanged); but an element whose `items` (or `tabs`)
is an array is mutated in place — the JS code aliases the element rather than
shallow-copying it, overwriting its sub-sequence with the recursively mapped
result before the visitor is invoked. -/
theorem C6_mapLayout_input_effect (layout : List JsonValue) (fn : LayoutFn)
    (root : List JsonValue) (path : String) :
    (mapLayoutInputAfter layout fn root path).length = layout.length
    ∧ ((∀ e ∈ layout, itemsOrTabs e = none) →
        mapLayoutInputAfter layout fn root path = layout) :=
  mapLayoutAux_after fn root layout path 0 0

/-- A visitor that returns every element unchanged. -/
def idFn : LayoutFn := fun v _ _ _ => v

/-- C6 witness: the amended theorem applied to a one-element layout with no
sub-sequences — the input comes back unchanged. -/
theorem C6_mapLayout_input_effect_witness :
    mapLayoutInputAfter [.num 1] idFn [.num 1] "" = [.num 1] :=
  (C6_mapLayout_input_effect [.num 1] idFn [.num 1] "").2
    (by intro e he; simp only [List.mem_singleton] at he; subst he; rfl)

/-- The traversal-order document of the spec: obj [a ↦ obj [b ↦ 1], c ↦ 2]. -/
def c8Doc : JsonValue := .obj [("a", .obj [("b", .num 1)]), ("c", .num 2)]

/-- C8 counterexample: against claim C8, the bottom-up walk visits /c first:
`_.forOwnRight` iterates the siblings in reverse insertion order, so the
sequence is c, a/b, a — not a/b, a, c. -/
theorem C8_counterexample :
    (forOwnDeepVisits c8Doc true "" true).map (fun e => e.2.2)
      = ["/c", "/a/b", "/a"]
    ∧ (["/c", "/a/b", "/a"] : List String) ≠ ["/a/b", "/a", "/c"] := by
  constructor
  · simp [forOwnDeepVisits, forOwnDeepChildVisits, c8Doc, childrenOf,
      JsonPointer.escape, JsonPointer.escapeChars, JsonPointer.parse]
  · decide

/-- C8 (amended): walking obj [a ↦ obj [b ↦ 1], c ↦ 2] top-down visits a,
then a/b, then c (insertion order, parent before children); with bottomUp set
the walker uses the reverse iterators, visiting children before their parent
and siblings in reverse insertion order: c, then a/b, then a. -/
theorem C8_traversal_order :
    (forOwnDeepVisits c8Doc true "" false).map (fun e => e.2.2)
      = ["/a", "/a/b", "/c"]
    ∧ (forOwnDeepVisits c8Doc true "" true).map (fun e => e.2.2)
      = ["/c", "/a/b", "/a"] := by
  constructor
  · simp [forOwnDeepVisits, forOwnDeepChildVisits, c8Doc, childrenOf,
      JsonPointer.escape, JsonPointer.escapeChars, JsonPointer.parse]
  · simp [forOwnDeepVisits, forOwnDeepChildVisits, c8Doc, childrenOf,
      JsonPointer.escape, JsonPointer.escapeChars, JsonPointer.parse]

theorem mapLayoutUnboundAux_error (fn : LayoutFn) (root : List JsonValue) :
    ∀ (layout : List JsonValue) (path : String) (index pad : Int),
      (∃ e ∈ layout, itemsOrTabs e ≠ none) →
      mapLayoutUnboundAux fn root layout path index pad = .error () := by
  intro layout
  induction layout with
  | nil =>
    intro path index pad h
    simp at h
  | cons item rest ih =>
    intro path index pad h
    cases hio : itemsOrTabs item with
    | some pr => simp [mapLayoutUnboundAux, hio]
    | none =>
      obtain ⟨e, he, hne⟩ := h
      rcases List.mem_cons.mp he with rfl | hmem
      · exact absurd hio hne
      · simp [mapLayoutUnboundAux, hio]
        rw [ih _ _ _ ⟨e, hmem, hne⟩]

theorem mapLayoutUnboundAux_ok (fn : LayoutFn) (root : List JsonValue) :
    ∀ (layout : List JsonValue) (path : String) (index pad : Int),
      (∀ e ∈ layout, itemsOrTabs e = none) →
      mapLayoutUnboundAux fn root layout path index pad
        = .ok (mapLayoutAux fn root layout path index pad).out := by
  intro layout
  induction layout with
  | nil =>
    intro path index pad _
    rw [mapLayoutAux_nil]
    rfl
  | cons item rest ih =>
    intro path index pad hplain
    have hio := hplain item (by simp)
    rw [mapLayoutAux_cons_plain fn root item rest path index pad hio]
    simp [mapLayoutUnboundAux, hio]
    rw [ih _ _ _ (fun e he => hplain e (by simp [he]))]

/-- The schema whose /w target is an allOf wrapper with an empty member list. -/
def c10EmptySchema : JsonValue := .obj [("w", .obj [("allOf", .arr [])])]

/-- C10 counterexample: against claim C10, a reference whose target is an
allOf wrapper does not always fail when the function is invoked unbound: with
an empty allOf array the map callback containing `this.resolveSchemaReference`
never runs, the reduce of no members yields the empty object, and the call
returns normally. -/
theorem C10_counterexample :
    allOfMembers (JsonPointer.get c10EmptySchema "/w") = some []
    ∧ resolveSchemaReferenceUnbound (.str "/w") c10EmptySchema [] false
      = .ok (.obj [], [("/w", ⟨false, some (.obj [])⟩)]) := ⟨rfl, rfl⟩

/-- C10 (amended): the recursive steps are `this`-qualified, so invoked as an
unbound function, mapLayout fails as soon as any element has an `items` or
`tabs` array and otherwise returns the bound function's result; forOwnDeep
fails exactly when the root has at least one child; and resolveSchemaReference
fails when the reference's target is an allOf wrapper with at least one
member (an empty allOf wrapper runs no callback and returns the empty merge
normally). -/
theorem C10_unbound_recursion :
    (∀ (layout : List JsonValue) (fn : LayoutFn) (root : List JsonValue) (path : String),
      ((∃ e ∈ layout, itemsOrTabs e ≠ none) →
        mapLayoutUnbound layout fn root path = .error ())
      ∧ ((∀ e ∈ layout, itemsOrTabs e = none) →
        mapLayoutUnbound layout fn root path = .ok (mapLayout layout fn root path)))
    ∧ (∀ object : JsonValue,
        (childrenOf object ≠ [] → forOwnDeepUnbound object = .error ())
        ∧ (childrenOf object = [] → forOwnDeepUnbound object = .ok object))
    ∧ (∀ (reference : JsonValue) (sp : String) (m : JsonValue) (ms : List JsonValue)
        (schema : JsonValue) (cache : Cache) (cOK : Bool),
        refPointer reference = some sp → cache.lookup sp = none → sp ≠ "" →
        sp.toList.take 4 ≠ "http".toList →
        allOfMembers (JsonPointer.get schema sp) = some (m :: ms) →
        resolveSchemaReferenceUnbound reference schema cache cOK = .error ()) := by
  refine ⟨?_, ?_, ?_⟩
  · intro layout fn root path
    exact ⟨mapLayoutUnboundAux_error fn root layout path 0 0,
      mapLayoutUnboundAux_ok fn root layout path 0 0⟩
  · intro object
    constructor
    · intro h
      cases hc : childrenOf object with
      | nil => exact absurd hc h
      | cons kv rest => simp [forOwnDeepUnbound, hc]
    · intro h
      simp [forOwnDeepUnbound, h]
  · intro reference sp m ms schema cache cOK h0 h1 h2 h3 h4
    simp only [resolveSchemaReferenceUnbound, h0, h1, h4, if_neg h2, if_neg h3]

/-- C10 witness: the amended theorem applied at concrete inputs — an unbound
mapLayout over an element with an (empty) items array fails, over a plain
number succeeds with the bound result, an unbound forOwnDeep fails on a
one-field object and succeeds on a number, and an unbound
resolveSchemaReference fails on a one-member allOf wrapper target. -/
theorem C10_unbound_recursion_witness :
    mapLayoutUnbound [.obj [("items", .arr [])]] idFn [] "" = .error ()
    ∧ mapLayoutUnbound [.num 1] idFn [] "" = .ok [.num 1]
    ∧ forOwnDeepUnbound (.obj [("a", .num 1)]) = .error ()
    ∧ forOwnDeepUnbound (.num 3) = .ok (.num 3)
    ∧ resolveSchemaReferenceUnbound (.str "/w")
        (.obj [("w", .obj [("allOf", .arr [.obj [("a", .num 1)]])])]) [] false
      = .error () := by
  refine ⟨?_, ?_, ?_, ?_, ?_⟩
  · exact (C10_unbound_recursion.1 [.obj [("items", .arr [])]] idFn [] "").1
      ⟨.obj [("items", .arr [])], by simp, by intro h; exact Option.noConfusion h⟩
  · have h := (C10_unbound_recursion.1 [.num 1] idFn [] "").2
      (by intro e he; simp only [List.mem_singleton] at he; subst he; rfl)
    have h2 : mapLayout [.num 1] idFn [] "" = [.num 1] := by
      simp [mapLayout, mapLayoutAux, mapLayoutSub, itemsOrTabs, idFn]
    rw [h2] at h
    exact h
  · exact (C10_unbound_recursion.2.1 (.obj [("a", .num 1)])).1 (by simp [childrenOf])
  · exact (C10_unbound_recursion.2.1 (.num 3)).2 rfl
  · exact C10_unbound_recursion.2.2 (.str "/w") "/w" (.obj [("a", .num 1)]) []
      (.obj [("w", .obj [("allOf", .arr [.obj [("a", .num 1)]])])]) [] false
      rfl rfl (by decide) (by decide) rfl

theorem lookup_setField_self (fields : List (String × JsonValue)) (k : String)
    (v : JsonValue) : (setField fields k v).lookup k = some v := by
  induction fields with
  | nil => simp [setField, List.lookup]
  | cons hd tl ih =>
    obtain ⟨k', v'⟩ := hd
    by_cases hk : k' = k
    · simp [setField, hk, List.lookup]
    · rw [setField]
      rw [if_neg hk]
      rw [List.lookup]
      simp [beq_eq_false_iff_ne.mpr (Ne.symm hk), ih]

theorem lookup_setField_ne (fields : List (String × JsonValue)) (k k' : String)
    (v : JsonValue) (h : k' ≠ k) :
    (setField fields k v).lookup k' = fields.lookup k' := by
  induction fields with
  | nil => simp [setField, List.lookup, beq_eq_false_iff_ne.mpr h]
  | cons hd tl ih =>
    obtain ⟨k0, v0⟩ := hd
    by_cases hk : k0 = k
    · subst hk
      rw [setField, if_pos rfl]
      rw [List.lookup, List.lookup]
      simp [beq_eq_false_iff_ne.mpr h]
    · rw [setField, if_neg hk]
      rw [List.lookup, List.lookup]
      cases hq : (k' == k0) with
      | true => rfl
      | false => simp [ih]

/-- First-some choice on options, the value-level shape of the later-wins
merge property. -/
def orOpt (a b : Option JsonValue) : Option JsonValue :=
  match a with
  | some w => some w
  | none => b

theorem lookup_none_of_not_mem (l : List (String × JsonValue)) (k : String)
    (h : k ∉ l.map Prod.fst) : l.lookup k = none := by
  induction l with
  | nil => rfl
  | cons hd tl ih =>
    obtain ⟨k0, v0⟩ := hd
    rw [List.map_cons] at h
    have h1 : k ≠ k0 := fun he => h (by rw [he]; exact List.mem_cons_self _ _)
    have h2 : k ∉ tl.map Prod.fst := fun hm => h (List.mem_cons_of_mem _ hm)
    rw [List.lookup]
    simp [beq_eq_false_iff_ne.mpr h1, ih h2]

theorem assignFields_lookup :
    ∀ (f2 f1 : List (String × JsonValue)) (k : String),
      (f2.map Prod.fst).Nodup →
      (f2.foldl (fun a kv => setField a kv.1 kv.2) f1).lookup k
        = orOpt (f2.lookup k) (f1.lookup k) := by
  intro f2
  induction f2 with
  | nil => intro f1 k _; rfl
  | cons kv rest ih =>
    intro f1 k hnd
    obtain ⟨k0, v0⟩ := kv
    simp only [List.map_cons, List.nodup_cons] at hnd
    rw [List.foldl_cons, ih (setField f1 k0 v0) k hnd.2]
    by_cases hk : k = k0
    · subst hk
      rw [lookup_none_of_not_mem rest k hnd.1, lookup_setField_self]
      rw [List.lookup]
      simp [orOpt]
    · rw [lookup_setField_ne f1 k0 k v0 hk]
      rw [List.lookup]
      simp [beq_eq_false_iff_ne.mpr hk]

/-- The allOf-flattening example schema: /w is a wrapper merging an inline
member obj [a ↦ 1] with a reference to /defs/b, which holds obj [b ↦ 2]. -/
def c2Schema : JsonValue :=
  .obj [("w", .obj [("allOf", .arr [.obj [("a", .num 1)],
                                     .obj [("$ref", .str "/defs/b")]])]),
        ("defs", .obj [("b", .obj [("b", .num 2)])])]

/-- C2: when a local reference's target is an object with exactly one key
`allOf` holding an array, resolveSchemaReference resolves every member in
order against the shared cache and returns the `Object.assign` merge of the
resolved members into one fresh object, later members' keys winning on
conflict; resolving the spec's example wrapper yields obj [a ↦ 1, b ↦ 2]. -/
theorem C2_allof_flattening :
    (∀ (fuel : Nat) (reference : JsonValue) (sp : String) (ms : List JsonValue)
       (schema : JsonValue) (cache : Cache) (cOK : Bool),
      refPointer reference = some sp → cache.lookup sp = none → sp ≠ "" →
      sp.toList.take 4 ≠ "http".toList →
      allOfMembers (JsonPointer.get schema sp) = some ms →
      resolveSchemaReference (fuel + 1) reference schema cache cOK
        = match resolveListWith
              (fun m c => resolveSchemaReference fuel m schema c cOK) ms cache with
          | none => none
          | some (vs, c') =>
            some (mergeAllOf vs, setEntry c' sp ⟨false, some (mergeAllOf vs)⟩))
    ∧ (∀ (f1 f2 : List (String × JsonValue)) (k : String),
        (f2.map Prod.fst).Nodup →
        jsGet (objAssignValue (.obj f1) (.obj f2)) k
          = (orOpt (f2.lookup k) (f1.lookup k)).getD .undef)
    ∧ (resolveSchemaReference 2 (.str "/w") c2Schema [] false).map Prod.fst
        = some (.obj [("a", .num 1), ("b", .num 2)]) := by
  refine ⟨?_, ?_, rfl⟩
  · intro fuel reference sp ms schema cache cOK h0 h1 h2 h3 h4
    exact resolve_allof_step fuel reference sp ms schema cache cOK h0 h1 h2 h3 h4
  · intro f1 f2 k hnd
    show jsGet (.obj (f2.foldl (fun a kv => setField a kv.1 kv.2) f1)) k = _
    rw [jsGet]
    rw [assignFields_lookup f2 f1 k hnd]

/-- C2 witness: the general allOf equation applied at the example schema, and
the later-wins merge property applied where both members bind "b". -/
theorem C2_allof_flattening_witness :
    resolveSchemaReference 2 (.str "/w") c2Schema [] false
      = (match resolveListWith
            (fun m c => resolveSchemaReference 1 m c2Schema c false)
            [.obj [("a", .num 1)], .obj [("$ref", .str "/defs/b")]] [] with
         | none => none
         | some (vs, c') =>
           some (mergeAllOf vs, setEntry c' "/w" ⟨false, some (mergeAllOf vs)⟩))
    ∧ jsGet (objAssignValue (.obj [("a", .num 1), ("b", .num 3)])
        (.obj [("b", .num 2)])) "b"
      = (orOpt ([("b", JsonValue.num 2)].lookup "b")
          ([("a", JsonValue.num 1), ("b", JsonValue.num 3)].lookup "b")).getD .undef :=
  ⟨C2_allof_flattening.1 1 (.str "/w") "/w"
      [.obj [("a", .num 1)], .obj [("$ref", .str "/defs/b")]] c2Schema [] false
      rfl rfl (by decide) (by decide) rfl,
   C2_allof_flattening.2.1 [("a", .num 1), ("b", .num 3)] [("b", .num 2)] "b"
      (by simp)⟩

theorem lookup_setEntry_ne (cache : Cache) (k k' : String) (e : CacheEntry)
    (h : k' ≠ k) : (setEntry cache k e).lookup k' = cache.lookup k' := by
  induction cache with
  | nil => simp [setEntry, List.lookup, beq_eq_false_iff_ne.mpr h]
  | cons hd tl ih =>
    obtain ⟨k0, e0⟩ := hd
    by_cases hk : k0 = k
    · subst hk
      rw [setEntry, if_pos rfl]
      rw [List.lookup, List.lookup]
      simp [beq_eq_false_iff_ne.mpr h]
    · rw [setEntry, if_neg hk]
      rw [List.lookup, List.lookup]
      cases hq : (k' == k0) with
      | true => rfl
      | false => simp [ih]

theorem resolveListWith_preserve (P : Cache → Prop)
    (res : JsonValue → Cache → Option (JsonValue × Cache))
    (hres : ∀ m c v c', res m c = some (v, c') → P c → P c') :
    ∀ (ms : List JsonValue) (c : Cache) (vs : List JsonValue) (c' : Cache),
      resolveListWith res ms c = some (vs, c') → P c → P c' := by
  intro ms
  induction ms with
  | nil =>
    intro c vs c' h hc
    simp [resolveListWith] at h
    rw [← h.2]
    exact hc
  | cons m rest ih =>
    intro c vs c' h hc
    rw [resolveListWith] at h
    cases hm : res m c with
    | none =>
      rw [hm] at h
      simp at h
    | some vc =>
      obtain ⟨v1, c1⟩ := vc
      rw [hm] at h
      simp only [Option.some.injEq] at h
      cases hrest : resolveListWith res rest c1 with
      | none =>
        rw [hrest] at h
        simp at h
      | some pr =>
        obtain ⟨vs2, c2⟩ := pr
        rw [hrest] at h
        simp at h
        rw [← h.2]
        exact ih c1 vs2 c2 hrest (hres m c v1 c1 hm hc)

theorem resolve_preserves (p : String) (v : JsonValue) :
    ∀ (fuel : Nat) (reference schema : JsonValue) (cache : Cache) (cOK : Bool)
      (res : JsonValue) (cache' : Cache),
      cache.lookup p = some ⟨false, some v⟩ →
      resolveSchemaReference fuel reference schema cache cOK = some (res, cache') →
      cache'.lookup p = some ⟨false, some v⟩ := by
  intro fuel
  induction fuel with
  | zero =>
    intro reference schema cache cOK res cache' hp h
    exact absurd h (by simp [resolveSchemaReference])
  | succ n ih =>
    intro reference schema cache cOK res cache' hp h
    cases hrp : refPointer reference with
    | none =>
      rw [resolve_notref n reference schema cache cOK hrp] at h
      simp at h
      rw [← h.2]
      exact hp
    | some sp =>
      cases hl : cache.lookup sp with
      | some entry =>
        rw [resolve_cache_hit n reference sp entry schema cache cOK hrp hl] at h
        split at h <;> (simp at h; rw [← h.2]; exact hp)
      | none =>
        have hps : p ≠ sp := by
          intro hps
          rw [hps] at hp
          rw [hp] at hl
          exact Option.noConfusion hl
        by_cases hsp : sp = ""
        · subst hsp
          rw [resolve_root n reference schema cache cOK hrp hl] at h
          simp at h
          rw [← h.2, lookup_setEntry_ne cache "" p ⟨true, none⟩ hps]
          exact hp
        · by_cases hhttp : sp.toList.take 4 = "http".toList
          · rw [resolve_http n reference sp schema cache cOK hrp hl hsp hhttp] at h
            simp at h
            rw [← h.2]
            exact hp
          · cases ham : allOfMembers (JsonPointer.get schema sp) with
            | none =>
              rw [resolve_plain n reference sp schema cache cOK hrp hl hsp hhttp ham] at h
              simp at h
              rw [← h.2, lookup_setEntry_ne cache sp p _ hps]
              exact hp
            | some ms =>
              rw [resolve_allof_step n reference sp ms schema cache cOK hrp hl hsp hhttp ham] at h
              cases hlist : resolveListWith
                  (fun m c => resolveSchemaReference n m schema c cOK) ms cache with
              | none => rw [hlist] at h; exact absurd h (by simp)
              | some pr =>
                obtain ⟨vs, c1⟩ := pr
                rw [hlist] at h
                simp at h
                have hpres : c1.lookup p = some ⟨false, some v⟩ :=
                  resolveListWith_preserve
                    (fun c => c.lookup p = some ⟨false, some v⟩)
                    (fun m c => resolveSchemaReference n m schema c cOK)
                    (fun m c v' c' hm hc => ih m schema c cOK v' c' hc hm)
                    ms cache vs c1 hlist hp
                rw [← h.2, lookup_setEntry_ne c1 sp p _ hps]
                exact hpres

/-- C3: once a pointer's cache entry holds a resolved (non-circular) schema,
resolving that pointer again against the same cache returns the cached value
with the cache untouched (the memoized early return embeds "without
recomputation", and value equality embeds JS object identity), and no
resolution pass through the same cache — whatever it resolves — ever
overwrites the populated entry. -/
theorem C3_resolver_memoization (schema : JsonValue) (cache : Cache) (cOK : Bool)
    (p : String) (v : JsonValue) (hp : cache.lookup p = some ⟨false, some v⟩) :
    (∀ (s : String) (fuel : Nat), JsonPointer.compile s = p →
      resolveSchemaReference (fuel + 1) (.str s) schema cache cOK = some (v, cache))
    ∧ (∀ (fuel : Nat) (reference res : JsonValue) (cache' : Cache),
        resolveSchemaReference fuel reference schema cache cOK = some (res, cache') →
        cache'.lookup p = some ⟨false, some v⟩) := by
  constructor
  · intro s fuel hc
    have h0 : refPointer (.str s) = some p := by rw [refPointer, hc]
    rw [resolve_cache_hit fuel (.str s) p ⟨false, some v⟩ schema cache cOK h0 hp]
    rfl
  · intro fuel reference res cache' h
    exact resolve_preserves p v fuel reference schema cache cOK res cache' hp h

/-- C3 witness: the memoization theorem applied at a concrete one-entry cache:
re-resolving /x returns the cached value with the cache unchanged. -/
theorem C3_resolver_memoization_witness :
    resolveSchemaReference 1 (.str "/x") (.obj [])
        [("/x", ⟨false, some (.num 7)⟩)] false
      = some (.num 7, [("/x", ⟨false, some (.num 7)⟩)]) :=
  (C3_resolver_memoization (.obj []) [("/x", ⟨false, some (.num 7)⟩)] false
    "/x" (.num 7) rfl).1 "/x" 0 rfl

theorem forOwnDeepVisits_self_mem (v : JsonValue) (ptr : String) (bU : Bool) :
    (v, (JsonPointer.parse ptr).getLast?, ptr) ∈ forOwnDeepVisits v false ptr bU := by
  rw [forOwnDeepVisits]
  cases bU <;> simp

theorem forOwnDeepChildVisits_mem {children : List (String × JsonValue)}
    {ptr : String} {bU : Bool} {k : String} {w : JsonValue} {e : Visit}
    (hkw : (k, w) ∈ children)
    (he : e ∈ forOwnDeepVisits w false (ptr ++ "/" ++ JsonPointer.escape k) bU) :
    e ∈ forOwnDeepChildVisits children ptr bU := by
  induction children with
  | nil => simp at hkw
  | cons kv rest ih =>
    obtain ⟨k0, w0⟩ := kv
    rw [forOwnDeepChildVisits]
    rcases List.mem_cons.mp hkw with heq | hmem
    · obtain ⟨hk, hw⟩ := Prod.mk.injEq .. ▸ heq
      subst hk
      subst hw
      exact List.mem_append_left _ he
    · exact List.mem_append_right _ (ih hmem)

theorem forOwnDeepVisits_child_mem {v : JsonValue} {isRoot : Bool} {ptr : String}
    {bU : Bool} {k : String} {w : JsonValue} {e : Visit}
    (hkw : (k, w) ∈ childrenOf v)
    (he : e ∈ forOwnDeepVisits w false (ptr ++ "/" ++ JsonPointer.escape k) bU) :
    e ∈ forOwnDeepVisits v isRoot ptr bU := by
  rw [forOwnDeepVisits]
  have hord : (k, w) ∈ (if bU then (childrenOf v).reverse else childrenOf v) := by
    cases bU <;> simp [hkw]
  exact List.mem_append_left _
    (List.mem_append_right _ (forOwnDeepChildVisits_mem hord he))

theorem lookup_mem {l : List (String × JsonValue)} {k : String} {w : JsonValue}
    (h : l.lookup k = some w) : (k, w) ∈ l := by
  induction l with
  | nil => simp [List.lookup] at h
  | cons hd tl ih =>
    obtain ⟨k0, v0⟩ := hd
    rw [List.lookup] at h
    cases hq : (k == k0) with
    | true =>
      rw [hq] at h
      simp at h
      rw [beq_iff_eq] at hq
      subst hq
      subst h
      exact List.mem_cons_self _ _
    | false =>
      rw [hq] at h
      simp at h
      exact List.mem_cons_of_mem _ (ih h)

theorem nodeAtSegs_visited (bU : Bool) :
    ∀ (segs : List String) (v : JsonValue) (isRoot : Bool) (ptr : String)
      (w : JsonValue),
      segs ≠ [] → nodeAtSegs v segs = some w →
      ∃ ck, (w, ck, ptrOfSegs ptr segs) ∈ forOwnDeepVisits v isRoot ptr bU := by
  intro segs
  induction segs with
  | nil =>
    intro v isRoot ptr w hne
    exact absurd rfl hne
  | cons k rest ih =>
    intro v isRoot ptr w _ hnode
    rw [nodeAtSegs] at hnode
    cases hlk : (childrenOf v).lookup k with
    | none =>
      rw [hlk] at hnode
      exact Option.noConfusion hnode
    | some u =>
      rw [hlk] at hnode
      by_cases hr : rest = []
      · subst hr
        simp [nodeAtSegs] at hnode
        subst hnode
        refine ⟨(JsonPointer.parse (ptr ++ "/" ++ JsonPointer.escape k)).getLast?, ?_⟩
        exact forOwnDeepVisits_child_mem (lookup_mem hlk)
          (forOwnDeepVisits_self_mem u (ptr ++ "/" ++ JsonPointer.escape k) bU)
      · obtain ⟨ck, hmem⟩ := ih u false (ptr ++ "/" ++ JsonPointer.escape k) w hr hnode
        exact ⟨ck, forOwnDeepVisits_child_mem (lookup_mem hlk) hmem⟩

mutual

theorem forOwnDeepVisits_ptr_len (v : JsonValue) (isRoot : Bool) (ptr : String)
    (bU : Bool) (e : Visit) (he : e ∈ forOwnDeepVisits v isRoot ptr bU) :
    ptr.length ≤ e.2.2.length ∧ (isRoot = true → ptr.length < e.2.2.length) := by
  rw [forOwnDeepVisits] at he
  rcases List.mem_append.mp he with h1 | hpost
  · rcases List.mem_append.mp h1 with hpre | hmid
    · by_cases hroot : isRoot = true
      · rw [hroot] at hpre
        simp at hpre
      · have heq : e = (v, (JsonPointer.parse ptr).getLast?, ptr) := by
          cases bU <;> simp_all
        rw [heq]
        exact ⟨le_refl _, fun hr => absurd hr hroot⟩
    · have hlt := forOwnDeepChildVisits_ptr_len
        (if bU then (childrenOf v).reverse else childrenOf v) ptr bU e hmid
      exact ⟨le_of_lt hlt, fun _ => hlt⟩
  · by_cases hroot : isRoot = true
    · rw [hroot] at hpost
      simp at hpost
    · have heq : e = (v, (JsonPointer.parse ptr).getLast?, ptr) := by
        cases bU <;> simp_all
      rw [heq]
      exact ⟨le_refl _, fun hr => absurd hr hroot⟩
termination_by sizeOf v + 1
decreasing_by
  have h1 := sizeOf_childrenOf_vals v
  cases bU <;> simp
  · omega
  · rw [sizeOf_list_reverse]
    omega

theorem forOwnDeepChildVisits_ptr_len (children : List (String × JsonValue))
    (ptr : String) (bU : Bool) (e : Visit)
    (he : e ∈ forOwnDeepChildVisits children ptr bU) :
    ptr.length < e.2.2.length := by
  match children with
  | [] =>
    rw [forOwnDeepChildVisits] at he
    simp at he
  | (k, w) :: rest =>
    rw [forOwnDeepChildVisits] at he
    rcases List.mem_append.mp he with h1 | h2
    · have h := (forOwnDeepVisits_ptr_len w false
        (ptr ++ "/" ++ JsonPointer.escape k) bU e h1).1
      have hlen : (ptr ++ "/" ++ JsonPointer.escape k).length
          = ptr.length + 1 + (JsonPointer.escape k).length := by
        rw [String.length_append, String.length_append]
        rfl
      omega
    · exact forOwnDeepChildVisits_ptr_len rest ptr bU e h2
termination_by sizeOf (children.map Prod.snd)
decreasing_by
  · have := list_sizeOf_pos (rest.map Prod.snd)
    simp at this ⊢
    try omega
  · simp
    try omega

end

/-- C7: a call of forOwnDeep without an explicit root argument never hands the
root node to the visitor (every visit's pointer is strictly longer than the
root's empty pointer), the visitor is invoked on every descendant node (every
nonempty child path that resolves to a node occurs among the visits, at its
escaped pointer), and a document whose root has no children produces no
visitor invocations at all. -/
theorem C7_forOwnDeep_root_never_visited (object : JsonValue) (bU : Bool) :
    (∀ e ∈ forOwnDeepVisits object true "" bU, e.2.2 ≠ "")
    ∧ (∀ (segs : List String) (w : JsonValue), segs ≠ [] →
        nodeAtSegs object segs = some w →
        ∃ ck, (w, ck, ptrOfSegs "" segs) ∈ forOwnDeepVisits object true "" bU)
    ∧ (childrenOf object = [] → forOwnDeepVisits object true "" bU = []) := by
  refine ⟨?_, ?_, ?_⟩
  · intro e he heq
    have h := (forOwnDeepVisits_ptr_len object true "" bU e he).2 rfl
    rw [heq] at h
    simp at h
  · intro segs w hne hnode
    exact nodeAtSegs_visited bU segs object true "" w hne hnode
  · intro hc
    rw [forOwnDeepVisits]
    cases bU <;> simp [hc, forOwnDeepChildVisits]

/-- C7 witness: the theorem applied to a one-field object (its single
descendant is visited at /a) and to a childless document (zero visits). -/
theorem C7_forOwnDeep_root_never_visited_witness :
    (∃ ck, ((JsonValue.num 1), ck, ptrOfSegs "" ["a"])
      ∈ forOwnDeepVisits (.obj [("a", .num 1)]) true "" false)
    ∧ forOwnDeepVisits (.num 3) true "" false = [] :=
  ⟨(C7_forOwnDeep_root_never_visited (.obj [("a", .num 1)]) false).2.1
      ["a"] (.num 1) (by simp) rfl,
   (C7_forOwnDeep_root_never_visited (.num 3) false).2.2 rfl⟩

theorem jsIndex_chain1 (b : JsonValue) (k : String) :
    jsIndex b k = .ok (jsGet b k) ∨ (jsIndex b k = .error () ∧ jsGet b k = .undef) := by
  cases b with
  | undef => exact Or.inr ⟨rfl, rfl⟩
  | null => exact Or.inr ⟨rfl, rfl⟩
  | bool x => exact Or.inl rfl
  | num x => exact Or.inl rfl
  | str x => exact Or.inl rfl
  | arr xs => exact Or.inl rfl
  | obj fields => exact Or.inl rfl

theorem jsIndex_chain2 (a : JsonValue) :
    (match jsIndex a "items" with
     | .error e => (.error e : Except Unit JsonValue)
     | .ok it => jsIndex it "required")
      = .ok (jsGet (jsGet a "items") "required")
    ∨ ((match jsIndex a "items" with
        | .error e => (.error e : Except Unit JsonValue)
        | .ok it => jsIndex it "required") = .error ()
       ∧ jsGet (jsGet a "items") "required" = .undef) := by
  cases a with
  | undef => exact Or.inr ⟨rfl, rfl⟩
  | null => exact Or.inr ⟨rfl, rfl⟩
  | bool x => exact Or.inr ⟨rfl, rfl⟩
  | num x => exact Or.inr ⟨rfl, rfl⟩
  | str x => exact Or.inr ⟨rfl, rfl⟩
  | arr xs => exact Or.inr ⟨rfl, rfl⟩
  | obj fields =>
    rw [show (match jsIndex (.obj fields) "items" with
         | .error e => (.error e : Except Unit JsonValue)
         | .ok it => jsIndex it "required")
        = jsIndex (jsGet (.obj fields) "items") "required" from rfl]
    exact jsIndex_chain1 (jsGet (.obj fields) "items") "required"

/-- The code's throwing required-list read agrees with the claim's total one:
either it returns exactly the claimed value, or it throws and the claimed
value is undefined (so in particular never an array). -/
theorem requiredListCode_spec (schema : JsonValue) (segs : List String) :
    requiredListCode schema segs = .ok (requiredListClaim schema segs)
    ∨ (requiredListCode schema segs = .error ()
       ∧ requiredListClaim schema segs = .undef) := by
  rw [requiredListCode, requiredListClaim]
  by_cases hlen : segs.length > 1
  · rw [if_pos hlen, if_pos hlen]
    by_cases hdash : segs.dropLast.getLast? = some "-"
    · rw [if_pos hdash, if_pos hdash]
      exact jsIndex_chain2 (JsonPointer.getSchema schema segs.dropLast.dropLast)
    · rw [if_neg hdash, if_neg hdash]
      exact jsIndex_chain1 (JsonPointer.getSchema schema segs.dropLast) "required"
  · rw [if_neg hlen, if_neg hlen]
    exact Or.inl rfl

theorem strMatch_eq (v : JsonValue) (key : String) :
    ((match v with | .str s => decide (s = key) | _ => false) = true) ↔ v = .str key := by
  cases v <;> simp

theorem isInputRequired_cons (schema : JsonValue) (pointer : String)
    (seg0 : String) (restSegs : List String)
    (hobj : isObject schema = true)
    (hsegs : JsonPointer.parse pointer = seg0 :: restSegs) :
    isInputRequired schema pointer
      = match requiredListCode schema (seg0 :: restSegs) with
        | .error e => .error e
        | .ok (.arr l) =>
          .ok (l.any (fun v => match v with
            | .str s => decide (s = (seg0 :: restSegs).getLast (by simp))
            | _ => false))
        | .ok _ => .ok false := by
  rw [isInputRequired, hsegs, hobj]
  simp

/-- C9: isInputRequired returns true exactly when the schema is an object (or
array), the parsed pointer is nonempty, and the required list located at the
pointer's parent path — per the claim's dispatch on a trailing `-` and on
single-segment pointers — is an array containing the pointer's last segment
as a string, by exact equality; it returns false on a non-object schema and
on a pointer that parses to no segments. -/
theorem C9_isInputRequired_truth (schema : JsonValue) (pointer : String) :
    (isInputRequired schema pointer = .ok true ↔
      (isObject schema = true ∧
        ∃ k, (JsonPointer.parse pointer).getLast? = some k ∧
        ∃ l, requiredListClaim schema (JsonPointer.parse pointer) = .arr l ∧
          JsonValue.str k ∈ l))
    ∧ (isObject schema = false → isInputRequired schema pointer = .ok false)
    ∧ (JsonPointer.parse pointer = [] → isInputRequired schema pointer = .ok false) := by
  refine ⟨?_, ?_, ?_⟩
  · cases hobj : isObject schema with
    | false =>
      rw [isInputRequired, hobj]
      simp
    | true =>
      cases hsegs : JsonPointer.parse pointer with
      | nil =>
        rw [isInputRequired, hsegs, hobj]
        simp
      | cons seg0 restSegs =>
        rw [isInputRequired_cons schema pointer seg0 restSegs hobj hsegs]
        rcases requiredListCode_spec schema (seg0 :: restSegs) with hok | ⟨herr, hclaim⟩
        · rw [hok]
          cases hcv : requiredListClaim schema (seg0 :: restSegs) with
          | arr l =>
            constructor
            · intro h
              simp only [Except.ok.injEq] at h
              obtain ⟨v, hvmem, hvp⟩ := List.any_eq_true.mp h
              have hv := (strMatch_eq v _).mp hvp
              subst hv
              exact ⟨rfl, (seg0 :: restSegs).getLast (by simp),
                List.getLast?_eq_getLast _ (by simp), l, rfl, hvmem⟩
            · rintro ⟨_, k, hk, l', hl', hmem⟩
              rw [List.getLast?_eq_getLast _ (by simp)] at hk
              injection hk with hk
              injection hl' with hl'
              subst hl'
              subst hk
              simp only [Except.ok.injEq]
              exact List.any_eq_true.mpr
                ⟨.str ((seg0 :: restSegs).getLast (by simp)), hmem,
                 (strMatch_eq _ _).mpr rfl⟩
          | null => simp
          | undef => simp
          | bool x => simp
          | num x => simp
          | str x => simp
          | obj fields => simp
        · rw [herr, hclaim]
          simp
  · intro h
    rw [isInputRequired, h]
    simp
  · intro h
    cases hobj : isObject schema with
    | false =>
      rw [isInputRequired, hobj]
      simp
    | true =>
      rw [isInputRequired, h, hobj]
      simp

/-- C9 witness: the truth condition applied at the spec's two examples (a
top-level required name, and an array-item lookup through `-` and `items`),
at a non-object schema, and at the empty pointer. -/
theorem C9_isInputRequired_truth_witness :
    isInputRequired
      (.obj [("required", .arr [.str "name"]),
             ("properties", .obj [("name", .obj [])])]) "/name" = .ok true
    ∧ isInputRequired
      (.obj [("properties", .obj [("list",
        .obj [("items", .obj [("required", .arr [.str "x"])])])])]) "/list/-/x"
      = .ok true
    ∧ isInputRequired (.num 5) "/a" = .ok false
    ∧ isInputRequired (.obj [("required", .arr [.str "a"])]) "" = .ok false :=
  ⟨(C9_isInputRequired_truth _ "/name").1.mpr
      ⟨rfl, "name", rfl, [.str "name"], rfl, by simp⟩,
   (C9_isInputRequired_truth _ "/list/-/x").1.mpr
      ⟨rfl, "x", rfl, [.str "x"], rfl, by simp⟩,
   (C9_isInputRequired_truth (.num 5) "/a").2.1 rfl,
   (C9_isInputRequired_truth _ "").2.2 rfl⟩
